import Mathlib

/-!
A shallow embedding of the in-memory to-do task store of `To_Do_API.cpp`
(classes `Task` and `TaskStorage`), with theorems checking the store
contract stated in the specification.

Modelling choices:
* `std::map<int, Task>` is embedded as an association list `List (Int × Task)`
  kept strictly sorted by key, which is the observable behaviour of the C++
  ordered map (in-order iteration, `find`, `operator[]` assignment, `erase`).
* Wall-clock readings are abstracted to natural numbers: every operation that
  reads the clock (`Task::setTime`, `Task::updateTime`) takes the reading as
  an explicit argument.  The C++ stores the reading formatted as a
  `"%Y-%m-%d %H:%M:%S"` string; a timestamp field is `none` while the C++
  string is still empty (never stamped) and `some n` once stamped at
  reading `n`.
* `nlohmann::json` objects are embedded as association lists of string keys
  and atomic values (`JVal`); the `json` → `std::string` conversion throws
  on a non-string value, embedded as `Option`.
* C++ `int` ids are embedded as unbounded `Int`: no claim under scrutiny
  concerns integer overflow.
-/

namespace TodoApi

/-- An atomic JSON value; only integers and strings occur in the embedded code. -/
inductive JVal where
  | jint (n : Int)
  | jstr (s : String)
deriving DecidableEq, Repr

/-- A JSON object, as the association list of its members. -/
abbrev Json : Type := List (String × JVal)

/-- The `json` → `std::string` conversion: throws (`none`) unless the value is
a string. -/
def JVal.asStr : JVal → Option String
  | .jstr s => some s
  | .jint _ => none

/-- `json::contains(key)` on an object. -/
def Json.contains (j : Json) (k : String) : Bool :=
  j.any (fun p => p.1 == k)

/-- `json::operator[](key)` lookup on an object (the code only reads it under
a `contains` guard). -/
def Json.get? (j : Json) (k : String) : Option JVal :=
  match j with
  | [] => none
  | p :: rest => if p.1 == k then some p.2 else Json.get? rest k

/-- The string value of a member: `operator[]` followed by the `std::string`
conversion. -/
def Json.strAt (j : Json) (k : String) : Option String :=
  Option.bind (Json.get? j k) JVal.asStr

/-- The `Task` record of `To_Do_API.cpp`.  The field defaults are the
default constructor `Task() : id(0), status("todo") {}`: the `std::string`
fields default-construct to empty, so the timestamps are unset (`none`). -/
structure Task where
  id : Int := 0
  title : String := ""
  description : String := ""
  status : String := "todo"
  create_time : Option Nat := none
  update_time : Option Nat := none
deriving DecidableEq, Repr

/-- `Task::setTime`: stamps both timestamps with the current clock reading. -/
def Task.setTime (t : Task) (now : Nat) : Task :=
  { t with create_time := some now, update_time := some now }

/-- `Task::updateTime`: stamps only the update timestamp. -/
def Task.updateTime (t : Task) (now : Nat) : Task :=
  { t with update_time := some now }

/-- The string the C++ writes for a timestamp field when serializing: empty
while unset, otherwise the formatted reading (the formatting itself is
abstracted; no claim depends on it). -/
def timeStr : Option Nat → String
  | none => ""
  | some n => toString n

/-- `Task::toJson`: the six members, in the order the code lists them.  (The
`try`/`catch` around the literal is dead: building this object does not
throw.) -/
def Task.toJson (t : Task) : Json :=
  [("id", .jint t.id),
   ("title", .jstr t.title),
   ("description", .jstr t.description),
   ("status", .jstr t.status),
   ("create_time", .jstr (timeStr t.create_time)),
   ("update_time", .jstr (timeStr t.update_time))]

/-- `Task::fromJson`: a default-constructed task, with each of `title`,
`description`, `status` copied from the object when present; `none` embeds
the exception thrown when a present value is not a string. -/
def Task.fromJson (j : Json) : Option Task :=
  (if Json.contains j "title" then
      (Json.strAt j "title").map (fun v => { ({} : Task) with title := v })
    else some ({} : Task)).bind fun t1 =>
  (if Json.contains j "description" then
      (Json.strAt j "description").map (fun v => { t1 with description := v })
    else some t1).bind fun t2 =>
  (if Json.contains j "status" then
      (Json.strAt j "status").map (fun v => { t2 with status := v })
    else some t2)

/-- `tasks[k] = v` on the sorted association list: insert-or-assign, keeping
keys strictly sorted and overwriting in place. -/
def mapSet (k : Int) (v : Task) : List (Int × Task) → List (Int × Task)
  | [] => [(k, v)]
  | (k', v') :: rest =>
    if k < k' then (k, v) :: (k', v') :: rest
    else if k = k' then (k, v) :: rest
    else (k', v') :: mapSet k v rest

/-- `tasks.find(k)` on the association list. -/
def mapFind (k : Int) : List (Int × Task) → Option Task
  | [] => none
  | (k', v') :: rest => if k = k' then some v' else mapFind k rest

/-- `tasks.erase(k)` on the association list (removes the entry with key `k`
when present). -/
def mapErase (k : Int) : List (Int × Task) → List (Int × Task)
  | [] => []
  | (k', v') :: rest => if k = k' then rest else (k', v') :: mapErase k rest

/-- The `TaskStorage` state: the ordered map and the id counter, with their
initializers `tasks` empty and `nextId = 1`.  (The `std::mutex` member has
no state-level content; its acquisition per operation is transcribed in
`opLocksMutex` below.) -/
structure TaskStorage where
  tasks : List (Int × Task) := []
  nextId : Int := 1
deriving DecidableEq, Repr

/-- The state of a freshly constructed `TaskStorage`. -/
def initStore : TaskStorage := {}

/-- `TaskStorage::createTask`: copies the caller's task, overwrites its id
with `nextId++`, stamps both timestamps, inserts at the new id, and returns
the stored task. -/
def TaskStorage.createTask (s : TaskStorage) (task : Task) (now : Nat) :
    Task × TaskStorage :=
  let newTask := Task.setTime { task with id := s.nextId } now
  (newTask, { tasks := mapSet newTask.id newTask s.tasks, nextId := s.nextId + 1 })

/-- `TaskStorage::getAllTasks`: in-order traversal of the map, collecting the
mapped tasks. -/
def TaskStorage.getAllTasks (s : TaskStorage) : List Task :=
  s.tasks.map Prod.snd

/-- `TaskStorage::getTask`: the stored task when the id is present, otherwise
a default-constructed `Task()`. -/
def TaskStorage.getTask (s : TaskStorage) (id : Int) : Task :=
  match mapFind id s.tasks with
  | some t => t
  | none => {}

/-- `TaskStorage::updateTask`: when the id is present, overwrites `title`,
`description` and `status` from the caller's task, stamps the update time,
and returns `true`; otherwise returns `false`. -/
def TaskStorage.updateTask (s : TaskStorage) (id : Int) (updatedTask : Task)
    (now : Nat) : Bool × TaskStorage :=
  match mapFind id s.tasks with
  | some task =>
    let task' := { task with
      title := updatedTask.title,
      description := updatedTask.description,
      status := updatedTask.status }
    (true, { s with tasks := mapSet id (Task.updateTime task' now) s.tasks })
  | none => (false, s)

/-- The three guarded field assignments of `TaskStorage::patchTask`, applied
to the stored task: each of `title`, `description`, `status` is overwritten
exactly when the key is present in the update object; `none` embeds the
exception thrown when a present value is not a string. -/
def patchFields (task : Task) (updates : Json) : Option Task :=
  (if Json.contains updates "title" then
      (Json.strAt updates "title").map (fun v => { task with title := v })
    else some task).bind fun t1 =>
  (if Json.contains updates "description" then
      (Json.strAt updates "description").map (fun v => { t1 with description := v })
    else some t1).bind fun t2 =>
  (if Json.contains updates "status" then
      (Json.strAt updates "status").map (fun v => { t2 with status := v })
    else some t2)

/-- `TaskStorage::patchTask`: when the id is present, applies the guarded
field assignments in place, stamps the update time, and returns `true`;
otherwise returns `false`.  (On the exception path — a present field whose
value is not a string — the C++ propagates the exception before reaching
`updateTime`, so the key set, ids, `nextId` and all timestamps are still
exactly as before the call.) -/
def TaskStorage.patchTask (s : TaskStorage) (id : Int) (updates : Json)
    (now : Nat) : Option (Bool × TaskStorage) :=
  match mapFind id s.tasks with
  | some task =>
    (patchFields task updates).map
      (fun t => (true, { s with tasks := mapSet id (Task.updateTime t now) s.tasks }))
  | none => some (false, s)

/-- `TaskStorage::deleteTask`: `tasks.erase(id) > 0`, i.e. `true` exactly when
the key was present, with the entry removed. -/
def TaskStorage.deleteTask (s : TaskStorage) (id : Int) : Bool × TaskStorage :=
  match mapFind id s.tasks with
  | some _ => (true, { s with tasks := mapErase id s.tasks })
  | none => (false, s)

/-- `TaskStorage::count`: the size of the map. -/
def TaskStorage.count (s : TaskStorage) : Nat :=
  s.tasks.length

/-- The public operations of `TaskStorage`, as names, for the lock-discipline
claim. -/
inductive StoreOp where
  | createTaskOp
  | getAllTasksOp
  | getTaskOp
  | updateTaskOp
  | patchTaskOp
  | deleteTaskOp
  | countOp
deriving DecidableEq, Repr

/-- Whether the body of each `TaskStorage` member in `To_Do_API.cpp` opens
with `std::lock_guard<std::mutex> lock(mtx);` — transcribed line by line:
`createTask` (l. 86), `getAllTasks` (l. 95), `getTask` (l. 104),
`updateTask` (l. 113), `patchTask` (l. 127) and `deleteTask` (l. 147) do;
`count` (ll. 151–153) contains no lock statement at all. -/
def opLocksMutex : StoreOp → Bool
  | .countOp => false
  | _ => true

/-- A store mutation, for the trace-based claims. -/
inductive Op where
  | create (t : Task)
  | update (id : Int) (t : Task)
  | patch (id : Int) (m : Json)
  | del (id : Int)

/-- One step of the store: a mutation paired with the clock reading the C++
obtains during it.  For `patch`, the exception path is embedded as the
identity on the store: in the C++ it can leave the text fields of the
patched task partially assigned, but the key set, every id, `nextId` and
every timestamp are exactly those of the pre-call state, which is all the
trace-based claims read. -/
def TaskStorage.step (s : TaskStorage) : Op × Nat → TaskStorage
  | (.create t, now) => (s.createTask t now).2
  | (.update id t, now) => (s.updateTask id t now).2
  | (.patch id m, now) =>
    match s.patchTask id m now with
    | some r => r.2
    | none => s
  | (.del id, _) => (s.deleteTask id).2

/-- Run a sequence of mutations from a store state. -/
def TaskStorage.run (s : TaskStorage) : List (Op × Nat) → TaskStorage
  | [] => s
  | p :: rest => (s.step p).run rest

/-- Decidable comparison of two timestamp fields: `true` exactly when both
are stamped and the first reading is at most the second. -/
def timeLeB : Option Nat → Option Nat → Bool
  | some x, some y => decide (x ≤ y)
  | _, _ => false

/-! ### Association-list lemmas for the embedded `std::map` -/

theorem mapFind_mapSet_self (k : Int) (v : Task) (l : List (Int × Task)) :
    mapFind k (mapSet k v l) = some v := by
  induction l with
  | nil => simp [mapSet, mapFind]
  | cons p rest ih =>
    obtain ⟨k0, v0⟩ := p
    by_cases h1 : k < k0
    · simp [mapSet, h1, mapFind]
    · by_cases h2 : k = k0
      · simp [mapSet, h1, h2, mapFind]
      · simp [mapSet, h1, h2, mapFind, ih]

theorem mapFind_mapSet_ne (k k' : Int) (v : Task) (l : List (Int × Task))
    (h : k' ≠ k) : mapFind k' (mapSet k v l) = mapFind k' l := by
  induction l with
  | nil => simp [mapSet, mapFind, h]
  | cons p rest ih =>
    obtain ⟨k0, v0⟩ := p
    by_cases h1 : k < k0
    · simp [mapSet, h1, mapFind, h]
    · by_cases h2 : k = k0
      · subst h2
        simp [mapSet, h1, mapFind, h]
      · by_cases h3 : k' = k0
        · simp [mapSet, h1, h2, mapFind, h3]
        · simp [mapSet, h1, h2, mapFind, h3, ih]

theorem mem_mapSet (k : Int) (v : Task) (l : List (Int × Task)) (p : Int × Task)
    (hp : p ∈ mapSet k v l) : p = (k, v) ∨ p ∈ l := by
  induction l with
  | nil => simpa [mapSet] using hp
  | cons q rest ih =>
    obtain ⟨k0, v0⟩ := q
    by_cases h1 : k < k0
    · simp only [mapSet, if_pos h1, List.mem_cons] at hp
      rcases hp with hp | hp | hp
      · exact Or.inl hp
      · exact Or.inr (by simp [hp])
      · exact Or.inr (by simp [hp])
    · by_cases h2 : k = k0
      · simp only [mapSet, if_neg h1, if_pos h2, List.mem_cons] at hp
        rcases hp with hp | hp
        · exact Or.inl hp
        · exact Or.inr (by simp [hp])
      · simp [mapSet, h1, h2] at hp
        rcases hp with hp | hp
        · right
          simp [hp]
        · rcases ih hp with h | h
          · left
            exact h
          · right
            simp [h]

theorem pairwise_mapSet (k : Int) (v : Task) (l : List (Int × Task))
    (hl : l.Pairwise (fun a b => a.1 < b.1)) :
    (mapSet k v l).Pairwise (fun a b => a.1 < b.1) := by
  induction l with
  | nil => simp [mapSet]
  | cons q rest ih =>
    obtain ⟨k0, v0⟩ := q
    rw [List.pairwise_cons] at hl
    obtain ⟨hhead, htail⟩ := hl
    by_cases h1 : k < k0
    · simp only [mapSet, if_pos h1]
      refine List.Pairwise.cons ?_ (List.Pairwise.cons hhead htail)
      intro b hb
      rcases List.mem_cons.mp hb with rfl | hb
      · exact h1
      · exact lt_trans h1 (hhead b hb)
    · by_cases h2 : k = k0
      · subst h2
        simp only [mapSet, if_neg h1, if_pos rfl]
        exact List.Pairwise.cons (fun b hb => hhead b hb) htail
      · simp only [mapSet, if_neg h1, if_neg h2]
        refine List.Pairwise.cons ?_ (ih htail)
        intro b hb
        rcases mem_mapSet k v rest b hb with rfl | hb
        · omega
        · exact hhead b hb

theorem mapErase_sublist (k : Int) (l : List (Int × Task)) :
    (mapErase k l).Sublist l := by
  induction l with
  | nil => simp [mapErase]
  | cons q rest ih =>
    obtain ⟨k0, v0⟩ := q
    by_cases h : k = k0
    · simp only [mapErase, if_pos h]
      exact List.sublist_cons_self _ _
    · simp only [mapErase, if_neg h]
      exact ih.cons₂ (k0, v0)

theorem mapFind_mapErase_ne (k k' : Int) (l : List (Int × Task)) (h : k' ≠ k) :
    mapFind k' (mapErase k l) = mapFind k' l := by
  induction l with
  | nil => simp [mapErase]
  | cons q rest ih =>
    obtain ⟨k0, v0⟩ := q
    by_cases h1 : k = k0
    · subst h1
      simp [mapErase, mapFind, h]
    · by_cases h2 : k' = k0
      · simp [mapErase, mapFind, h1, h2]
      · simp [mapErase, mapFind, h1, h2, ih]

theorem mapFind_eq_none (k : Int) (l : List (Int × Task)) :
    mapFind k l = none ↔ ∀ p ∈ l, p.1 ≠ k := by
  induction l with
  | nil => simp [mapFind]
  | cons q rest ih =>
    obtain ⟨k0, v0⟩ := q
    by_cases h : k = k0
    · subst h
      simp [mapFind]
    · have h' : k0 ≠ k := fun he => h he.symm
      simp [mapFind, h, ih, h']

theorem mapFind_mem (k : Int) (v : Task) (l : List (Int × Task))
    (h : mapFind k l = some v) : (k, v) ∈ l := by
  induction l with
  | nil => simp [mapFind] at h
  | cons q rest ih =>
    obtain ⟨k0, v0⟩ := q
    by_cases h1 : k = k0
    · subst h1
      simp [mapFind] at h
      simp [h]
    · simp only [mapFind, if_neg h1] at h
      exact List.mem_cons_of_mem _ (ih h)

theorem mapFind_of_mem (k : Int) (v : Task) (l : List (Int × Task))
    (hl : l.Pairwise (fun a b => a.1 < b.1)) (h : (k, v) ∈ l) :
    mapFind k l = some v := by
  induction l with
  | nil => simp at h
  | cons q rest ih =>
    obtain ⟨k0, v0⟩ := q
    rw [List.pairwise_cons] at hl
    obtain ⟨hhead, htail⟩ := hl
    rcases List.mem_cons.mp h with heq | hmem
    · rw [Prod.mk.injEq] at heq
      obtain ⟨h1, h2⟩ := heq
      subst h1
      subst h2
      simp [mapFind]
    · have hk : k0 < k := by simpa using hhead (k, v) hmem
      have hne : ¬ (k = k0) := by omega
      simp [mapFind, hne, ih htail hmem]

theorem mapFind_mapErase_self (k : Int) (l : List (Int × Task))
    (hl : l.Pairwise (fun a b => a.1 < b.1)) :
    mapFind k (mapErase k l) = none := by
  induction l with
  | nil => simp [mapErase, mapFind]
  | cons q rest ih =>
    obtain ⟨k0, v0⟩ := q
    rw [List.pairwise_cons] at hl
    obtain ⟨hhead, htail⟩ := hl
    by_cases h1 : k = k0
    · subst h1
      simp only [mapErase, if_pos rfl]
      rw [mapFind_eq_none]
      intro p hp
      have := hhead p hp
      omega
    · simp [mapErase, mapFind, h1, ih htail]

/-! ### Lemmas about the JSON object embedding and `patchFields` -/

theorem get_eq_none_of_contains_false (j : Json) (k : String)
    (h : Json.contains j k = false) : Json.get? j k = none := by
  induction j with
  | nil => simp [Json.get?]
  | cons p rest ih =>
    simp only [Json.contains, List.any_cons, Bool.or_eq_false_iff] at h
    obtain ⟨h1, h2⟩ := h
    simp only [Json.get?, h1, if_false]
    exact ih h2

theorem strAt_eq_none (j : Json) (k : String) (h : Json.contains j k = false) :
    Json.strAt j k = none := by
  simp [Json.strAt, get_eq_none_of_contains_false j k h]

/-- Each guarded field assignment of `patchFields` either throws, leaves the
task unchanged, or sets the one field it guards. -/
theorem ite_map_some (c : Bool) (os : Option String) (f : String → Task)
    (t0 t1 : Task) (h : (if c then os.map f else some t0) = some t1) :
    t1 = t0 ∨ ∃ v, os = some v ∧ t1 = f v := by
  cases c with
  | false =>
    simp only [if_neg, Bool.false_eq_true, if_false, Option.some.injEq] at h
    exact Or.inl h.symm
  | true =>
    simp only [if_pos, if_true] at h
    rcases Option.map_eq_some'.mp h with ⟨v, hv, he⟩
    exact Or.inr ⟨v, hv, he.symm⟩

/-- `patchFields` never touches the id or either timestamp of the task. -/
theorem patchFields_pres (task : Task) (m : Json) (t : Task)
    (h : patchFields task m = some t) :
    t.id = task.id ∧ t.create_time = task.create_time ∧
      t.update_time = task.update_time := by
  unfold patchFields at h
  rcases Option.bind_eq_some.mp h with ⟨t1, h1, h'⟩
  rcases Option.bind_eq_some.mp h' with ⟨t2, h2, h3⟩
  have e1 : t1.id = task.id ∧ t1.create_time = task.create_time ∧
      t1.update_time = task.update_time := by
    rcases ite_map_some _ _ _ _ _ h1 with rfl | ⟨v, _, rfl⟩ <;> simp
  have e2 : t2.id = t1.id ∧ t2.create_time = t1.create_time ∧
      t2.update_time = t1.update_time := by
    rcases ite_map_some _ _ _ _ _ h2 with rfl | ⟨v, _, rfl⟩ <;> simp
  have e3 : t.id = t2.id ∧ t.create_time = t2.create_time ∧
      t.update_time = t2.update_time := by
    rcases ite_map_some _ _ _ _ _ h3 with rfl | ⟨v, _, rfl⟩ <;> simp
  exact ⟨by rw [e3.1, e2.1, e1.1], by rw [e3.2.1, e2.2.1, e1.2.1],
    by rw [e3.2.2, e2.2.2, e1.2.2]⟩

/-- When every supplied field among `title`, `description`, `status` carries a
string, `patchFields` succeeds and sets exactly the supplied fields,
leaving an omitted field at its prior value. -/
theorem patchFields_eq (task : Task) (m : Json)
    (ht : Json.contains m "title" = true → (Json.strAt m "title").isSome = true)
    (hd : Json.contains m "description" = true →
      (Json.strAt m "description").isSome = true)
    (hs : Json.contains m "status" = true → (Json.strAt m "status").isSome = true) :
    patchFields task m = some { task with
      title := (Json.strAt m "title").getD task.title,
      description := (Json.strAt m "description").getD task.description,
      status := (Json.strAt m "status").getD task.status } := by
  cases hT : Json.contains m "title" with
  | true =>
    obtain ⟨vT, hvT⟩ := Option.isSome_iff_exists.mp (ht hT)
    cases hD : Json.contains m "description" with
    | true =>
      obtain ⟨vD, hvD⟩ := Option.isSome_iff_exists.mp (hd hD)
      cases hS : Json.contains m "status" with
      | true =>
        obtain ⟨vS, hvS⟩ := Option.isSome_iff_exists.mp (hs hS)
        simp [patchFields, hT, hD, hS, hvT, hvD, hvS]
      | false =>
        simp [patchFields, hT, hD, hS, hvT, hvD, strAt_eq_none m "status" hS]
    | false =>
      have hD0 := strAt_eq_none m "description" hD
      cases hS : Json.contains m "status" with
      | true =>
        obtain ⟨vS, hvS⟩ := Option.isSome_iff_exists.mp (hs hS)
        simp [patchFields, hT, hD, hS, hvT, hD0, hvS]
      | false =>
        simp [patchFields, hT, hD, hS, hvT, hD0, strAt_eq_none m "status" hS]
  | false =>
    have hT0 := strAt_eq_none m "title" hT
    cases hD : Json.contains m "description" with
    | true =>
      obtain ⟨vD, hvD⟩ := Option.isSome_iff_exists.mp (hd hD)
      cases hS : Json.contains m "status" with
      | true =>
        obtain ⟨vS, hvS⟩ := Option.isSome_iff_exists.mp (hs hS)
        simp [patchFields, hT, hD, hS, hT0, hvD, hvS]
      | false =>
        simp [patchFields, hT, hD, hS, hT0, hvD, strAt_eq_none m "status" hS]
    | false =>
      have hD0 := strAt_eq_none m "description" hD
      cases hS : Json.contains m "status" with
      | true =>
        obtain ⟨vS, hvS⟩ := Option.isSome_iff_exists.mp (hs hS)
        simp [patchFields, hT, hD, hS, hT0, hD0, hvS]
      | false =>
        simp [patchFields, hT, hD, hS, hT0, hD0, strAt_eq_none m "status" hS]

/-! ### The key invariant of reachable store states -/

/-- The structural invariant of every reachable `TaskStorage` state: the id
counter is at least its initial value `1`; the map keys are strictly sorted;
and every stored task carries its own key as id, with the key strictly
positive and strictly below the counter. -/
def KeyInv (s : TaskStorage) : Prop :=
  1 ≤ s.nextId ∧
  s.tasks.Pairwise (fun a b => a.1 < b.1) ∧
  ∀ p ∈ s.tasks, p.2.id = p.1 ∧ 1 ≤ p.1 ∧ p.1 < s.nextId

theorem keyInv_init : KeyInv initStore := by
  refine ⟨le_refl 1, ?_, ?_⟩ <;> simp [initStore]

theorem keyInv_createTask (s : TaskStorage) (t : Task) (now : Nat)
    (h : KeyInv s) : KeyInv (s.createTask t now).2 := by
  obtain ⟨hn, hsort, hent⟩ := h
  unfold KeyInv TaskStorage.createTask Task.setTime
  dsimp only
  refine ⟨by omega, pairwise_mapSet _ _ _ hsort, ?_⟩
  intro p hp
  rcases mem_mapSet _ _ _ _ hp with rfl | hp
  · exact ⟨rfl, hn, by omega⟩
  · obtain ⟨ha, hb, hc⟩ := hent p hp
    exact ⟨ha, hb, by omega⟩

theorem keyInv_updateTask (s : TaskStorage) (id : Int) (t : Task) (now : Nat)
    (h : KeyInv s) : KeyInv (s.updateTask id t now).2 := by
  obtain ⟨hn, hsort, hent⟩ := h
  cases hf : mapFind id s.tasks with
  | none => simpa [TaskStorage.updateTask, hf] using ⟨hn, hsort, hent⟩
  | some task =>
    obtain ⟨ha, hb, hc⟩ := hent _ (mapFind_mem _ _ _ hf)
    simp only [TaskStorage.updateTask, hf, Task.updateTime]
    refine ⟨hn, pairwise_mapSet _ _ _ hsort, ?_⟩
    intro p hp
    rcases mem_mapSet _ _ _ _ hp with rfl | hp
    · exact ⟨ha, hb, hc⟩
    · exact hent p hp

theorem keyInv_patchTask (s : TaskStorage) (id : Int) (m : Json) (now : Nat)
    (r : Bool × TaskStorage) (h : KeyInv s) (hr : s.patchTask id m now = some r) :
    KeyInv r.2 := by
  obtain ⟨hn, hsort, hent⟩ := h
  cases hf : mapFind id s.tasks with
  | none =>
    simp only [TaskStorage.patchTask, hf, Option.some.injEq] at hr
    rw [← hr]
    exact ⟨hn, hsort, hent⟩
  | some task =>
    simp only [TaskStorage.patchTask, hf] at hr
    rcases Option.map_eq_some'.mp hr with ⟨t', hpf, he⟩
    obtain ⟨ha, hb, hc⟩ := hent _ (mapFind_mem _ _ _ hf)
    obtain ⟨hid, _, _⟩ := patchFields_pres _ _ _ hpf
    rw [← he]
    refine ⟨hn, pairwise_mapSet _ _ _ hsort, ?_⟩
    intro p hp
    rcases mem_mapSet _ _ _ _ hp with rfl | hp
    · simp only [Task.updateTime]
      exact ⟨by rw [hid, ha], hb, hc⟩
    · exact hent p hp

theorem keyInv_deleteTask (s : TaskStorage) (id : Int) (h : KeyInv s) :
    KeyInv (s.deleteTask id).2 := by
  obtain ⟨hn, hsort, hent⟩ := h
  cases hf : mapFind id s.tasks with
  | none => simpa [TaskStorage.deleteTask, hf] using ⟨hn, hsort, hent⟩
  | some task =>
    simp only [TaskStorage.deleteTask, hf]
    refine ⟨hn, hsort.sublist (mapErase_sublist id s.tasks), ?_⟩
    intro p hp
    exact hent p ((mapErase_sublist id s.tasks).subset hp)

theorem keyInv_step (s : TaskStorage) (p : Op × Nat) (h : KeyInv s) :
    KeyInv (s.step p) := by
  obtain ⟨op, now⟩ := p
  cases op with
  | create t => exact keyInv_createTask s t now h
  | update id t => exact keyInv_updateTask s id t now h
  | patch id m =>
    simp only [TaskStorage.step]
    cases hr : s.patchTask id m now with
    | none => exact h
    | some r => exact keyInv_patchTask s id m now r h hr
  | del id => exact keyInv_deleteTask s id h

theorem keyInv_run (s : TaskStorage) (ops : List (Op × Nat)) (h : KeyInv s) :
    KeyInv (s.run ops) := by
  induction ops generalizing s with
  | nil => exact h
  | cons p rest ih => exact ih (s.step p) (keyInv_step s p h)

/-! ### Monotonicity of the id counter -/

theorem nextId_step_le (s : TaskStorage) (p : Op × Nat) :
    s.nextId ≤ (s.step p).nextId := by
  obtain ⟨op, now⟩ := p
  cases op with
  | create t =>
    simp only [TaskStorage.step, TaskStorage.createTask]
    omega
  | update id t =>
    cases hf : mapFind id s.tasks <;>
      simp [TaskStorage.step, TaskStorage.updateTask, hf]
  | patch id m =>
    cases hf : mapFind id s.tasks with
    | none => simp [TaskStorage.step, TaskStorage.patchTask, hf]
    | some task =>
      cases hpf : patchFields task m <;>
        simp [TaskStorage.step, TaskStorage.patchTask, hf, hpf]
  | del id =>
    cases hf : mapFind id s.tasks <;>
      simp [TaskStorage.step, TaskStorage.deleteTask, hf]

theorem nextId_run_le (s : TaskStorage) (ops : List (Op × Nat)) :
    s.nextId ≤ (s.run ops).nextId := by
  induction ops generalizing s with
  | nil => exact le_refl _
  | cons p rest ih => exact le_trans (nextId_step_le s p) (ih (s.step p))

/-! ### Timestamp preservation along later mutations -/

/-- Along any further mutations whose clock readings are at least `c`, a task
stored under a key below the current counter keeps its creation stamp `c`,
and its update stamp stays at least `c`. -/
theorem time_run_inv (ops : List (Op × Nat)) (s : TaskStorage) (k : Int) (c : Nat)
    (hk : k < s.nextId) (hinv : KeyInv s)
    (hops : ∀ p ∈ ops, c ≤ p.2)
    (h : ∀ t, mapFind k s.tasks = some t →
      t.create_time = some c ∧ timeLeB (some c) t.update_time = true) :
    ∀ t, mapFind k (s.run ops).tasks = some t →
      t.create_time = some c ∧ timeLeB (some c) t.update_time = true := by
  induction ops generalizing s with
  | nil => exact h
  | cons p rest ih =>
    obtain ⟨op, now⟩ := p
    have hnow : c ≤ now := hops (op, now) (List.mem_cons_self _ _)
    have hops' : ∀ q ∈ rest, c ≤ q.2 := fun q hq => hops q (List.mem_cons_of_mem _ hq)
    have hstep : ∀ t, mapFind k (s.step (op, now)).tasks = some t →
        t.create_time = some c ∧ timeLeB (some c) t.update_time = true := by
      cases op with
      | create t0 =>
        have hfk : mapFind k (s.step (.create t0, now)).tasks = mapFind k s.tasks := by
          simp only [TaskStorage.step, TaskStorage.createTask]
          exact mapFind_mapSet_ne _ k _ s.tasks (show k ≠ s.nextId by omega)
        intro t ht
        rw [hfk] at ht
        exact h t ht
      | update id u =>
        cases hf : mapFind id s.tasks with
        | none =>
          intro t ht
          refine h t ?_
          simpa [TaskStorage.step, TaskStorage.updateTask, hf] using ht
        | some task =>
          by_cases hke : k = id
          · subst hke
            intro t ht
            simp only [TaskStorage.step, TaskStorage.updateTask, hf] at ht
            rw [mapFind_mapSet_self] at ht
            have hteq := (Option.some.inj ht).symm
            subst hteq
            obtain ⟨hc, _⟩ := h task hf
            constructor
            · simpa [Task.updateTime] using hc
            · simp [Task.updateTime, timeLeB, hnow]
          · have hfk : mapFind k (s.step (.update id u, now)).tasks
                = mapFind k s.tasks := by
              simp only [TaskStorage.step, TaskStorage.updateTask, hf]
              exact mapFind_mapSet_ne id k _ s.tasks hke
            intro t ht
            rw [hfk] at ht
            exact h t ht
      | patch id m =>
        cases hf : mapFind id s.tasks with
        | none =>
          intro t ht
          refine h t ?_
          simpa [TaskStorage.step, TaskStorage.patchTask, hf] using ht
        | some task =>
          cases hpf : patchFields task m with
          | none =>
            intro t ht
            refine h t ?_
            simpa [TaskStorage.step, TaskStorage.patchTask, hf, hpf] using ht
          | some t' =>
            obtain ⟨_, hct, _⟩ := patchFields_pres task m t' hpf
            by_cases hke : k = id
            · subst hke
              intro t ht
              simp only [TaskStorage.step, TaskStorage.patchTask, hf, hpf,
                Option.map_some'] at ht
              rw [mapFind_mapSet_self] at ht
              have hteq := (Option.some.inj ht).symm
              subst hteq
              obtain ⟨hc, _⟩ := h task hf
              constructor
              · simp only [Task.updateTime]
                rw [hct]
                exact hc
              · simp [Task.updateTime, timeLeB, hnow]
            · have hfk : mapFind k (s.step (.patch id m, now)).tasks
                  = mapFind k s.tasks := by
                simp only [TaskStorage.step, TaskStorage.patchTask, hf, hpf,
                  Option.map_some']
                exact mapFind_mapSet_ne id k _ s.tasks hke
              intro t ht
              rw [hfk] at ht
              exact h t ht
      | del id =>
        by_cases hke : k = id
        · subst hke
          intro t ht
          exfalso
          cases hf : mapFind k s.tasks with
          | none =>
            simp only [TaskStorage.step, TaskStorage.deleteTask, hf] at ht
            exact Option.noConfusion ht
          | some task =>
            simp only [TaskStorage.step, TaskStorage.deleteTask, hf] at ht
            rw [mapFind_mapErase_self k s.tasks hinv.2.1] at ht
            exact Option.noConfusion ht
        · have hfk : mapFind k (s.step (.del id, now)).tasks = mapFind k s.tasks := by
            cases hf : mapFind id s.tasks with
            | none => simp [TaskStorage.step, TaskStorage.deleteTask, hf]
            | some task =>
              simp only [TaskStorage.step, TaskStorage.deleteTask, hf]
              exact mapFind_mapErase_ne id k s.tasks hke
          intro t ht
          rw [hfk] at ht
          exact h t ht
    simp only [TaskStorage.run]
    apply ih
    · exact lt_of_lt_of_le hk (nextId_step_le s (op, now))
    · exact keyInv_step s (op, now) hinv
    · exact hops'
    · exact hstep

/-! ### Sample data for concrete instantiations -/

/-- A concrete stored task, for instantiating theorems with hypotheses. -/
def sampleTask : Task :=
  { id := 1
    title := "Buy milk"
    description := "Fat 3.2"
    status := "todo"
    create_time := some 0
    update_time := some 0 }

/-- A concrete store holding `sampleTask` under key 1. -/
def sampleStore : TaskStorage :=
  { tasks := [(1, sampleTask)]
    nextId := 2 }

/-! ### The claims -/

/-- C1: For every sequence of store operations, `createTask` assigns the id
from the store's counter, ignoring any id on the caller-supplied task: the
first create on a fresh store yields id 1, every issued id is at least 1,
and a create performed after any further operations — deletions included —
yields a strictly greater id, so an issued id is never issued again. -/
theorem C1_create_ids (ops1 ops2 : List (Op × Nat)) (t1 t2 : Task) (n1 n2 : Nat) :
    (initStore.createTask t1 n1).1.id = 1 ∧
    ((initStore.run ops1).createTask t1 n1).1.id = (initStore.run ops1).nextId ∧
    1 ≤ ((initStore.run ops1).createTask t1 n1).1.id ∧
    ((initStore.run ops1).createTask t1 n1).1.id <
      ((((initStore.run ops1).createTask t1 n1).2.run ops2).createTask t2 n2).1.id := by
  have e1 : ((initStore.run ops1).createTask t1 n1).1.id
      = (initStore.run ops1).nextId := rfl
  have e2 : (((initStore.run ops1).createTask t1 n1).2).nextId
      = (initStore.run ops1).nextId + 1 := rfl
  have e3 : ((((initStore.run ops1).createTask t1 n1).2.run ops2).createTask t2 n2).1.id
      = (((initStore.run ops1).createTask t1 n1).2.run ops2).nextId := rfl
  have h0 : initStore.nextId = 1 := rfl
  have hr1 := nextId_run_le initStore ops1
  have hr2 := nextId_run_le ((initStore.run ops1).createTask t1 n1).2 ops2
  rw [h0] at hr1
  rw [e2] at hr2
  refine ⟨rfl, e1, ?_, ?_⟩
  · rw [e1]
    omega
  · rw [e1, e3]
    omega

/-- C2: For every stored task and every patch object whose supplied fields
are strings, `patchTask` succeeds, changes exactly the fields among `title`,
`description`, `status` present in the object, leaves omitted fields at
their prior values, keeps the id and creation stamp, stamps the update time
(also when no field is supplied), and leaves every other key of the store
unchanged. -/
theorem C2_patchTask_fields (s : TaskStorage) (id : Int) (m : Json) (now : Nat)
    (task : Task) (hfind : mapFind id s.tasks = some task)
    (ht : Json.contains m "title" = true → (Json.strAt m "title").isSome = true)
    (hd : Json.contains m "description" = true →
      (Json.strAt m "description").isSome = true)
    (hs : Json.contains m "status" = true → (Json.strAt m "status").isSome = true) :
    ∃ t', s.patchTask id m now =
        some (true, { s with tasks := mapSet id t' s.tasks }) ∧
      t' = { task with
             title := (Json.strAt m "title").getD task.title
             description := (Json.strAt m "description").getD task.description
             status := (Json.strAt m "status").getD task.status
             update_time := some now } ∧
      mapFind id (mapSet id t' s.tasks) = some t' ∧
      (∀ k, k ≠ id → mapFind k (mapSet id t' s.tasks) = mapFind k s.tasks) := by
  have hpf := patchFields_eq task m ht hd hs
  refine ⟨Task.updateTime
      { task with
        title := (Json.strAt m "title").getD task.title
        description := (Json.strAt m "description").getD task.description
        status := (Json.strAt m "status").getD task.status } now,
    ?_, rfl, mapFind_mapSet_self _ _ _,
    fun k hk => mapFind_mapSet_ne id k _ s.tasks hk⟩
  simp only [TaskStorage.patchTask, hfind, hpf, Option.map_some']

theorem C2_patchTask_fields_witness :
    ∃ t', TaskStorage.patchTask sampleStore 1 [("status", JVal.jstr "done")] 7 =
      some (true, { sampleStore with tasks := mapSet 1 t' sampleStore.tasks }) :=
  (C2_patchTask_fields sampleStore 1 [("status", JVal.jstr "done")] 7 sampleTask
    (by decide) (by decide) (by decide) (by decide)).elim (fun t' h => ⟨t', h.1⟩)

/-- C3: For every id not present in the store, `updateTask`, `patchTask` and
`deleteTask` return `false`, leave the whole store state — map contents and
next-id counter — unchanged, and do not change `count`. -/
theorem C3_missing_id_noop (s : TaskStorage) (id : Int) (u : Task) (m : Json)
    (now : Nat) (h : mapFind id s.tasks = none) :
    s.updateTask id u now = (false, s) ∧
    s.patchTask id m now = some (false, s) ∧
    s.deleteTask id = (false, s) ∧
    (s.updateTask id u now).2.count = s.count ∧
    (s.deleteTask id).2.count = s.count := by
  refine ⟨?_, ?_, ?_, ?_, ?_⟩ <;>
    simp [TaskStorage.updateTask, TaskStorage.patchTask, TaskStorage.deleteTask, h]

theorem C3_missing_id_noop_witness :
    TaskStorage.updateTask initStore 5 {} 0 = (false, initStore) ∧
    TaskStorage.patchTask initStore 5 [] 0 = some (false, initStore) ∧
    TaskStorage.deleteTask initStore 5 = (false, initStore) :=
  ⟨(C3_missing_id_noop initStore 5 {} [] 0 (by decide)).1,
   (C3_missing_id_noop initStore 5 {} [] 0 (by decide)).2.1,
   (C3_missing_id_noop initStore 5 {} [] 0 (by decide)).2.2.1⟩

/-- C4: In every reachable store state, `getTask` returns the stored task for
a present id and the default-constructed sentinel (id 0) for an absent id;
ids at or above the counter and ids below 1 — in particular every id never
issued, or issued and then deleted — are absent; and since every stored
task has a strictly positive id, presence is distinguished exactly by
`id ≠ 0`. -/
theorem C4_getTask_sentinel (ops : List (Op × Nat)) (id : Int) :
    (∀ t, mapFind id (initStore.run ops).tasks = some t →
      (initStore.run ops).getTask id = t) ∧
    (mapFind id (initStore.run ops).tasks = none →
      (initStore.run ops).getTask id = {}) ∧
    (((initStore.run ops).getTask id).id ≠ 0 ↔
      (mapFind id (initStore.run ops).tasks).isSome = true) ∧
    ((initStore.run ops).nextId ≤ id → mapFind id (initStore.run ops).tasks = none) ∧
    (id ≤ 0 → mapFind id (initStore.run ops).tasks = none) := by
  obtain ⟨hn, hsort, hent⟩ := keyInv_run initStore ops keyInv_init
  refine ⟨?_, ?_, ?_, ?_, ?_⟩
  · intro t ht
    simp [TaskStorage.getTask, ht]
  · intro hnone
    simp [TaskStorage.getTask, hnone]
  · cases hf : mapFind id (initStore.run ops).tasks with
    | some t =>
      have ha : t.id = id := by simpa using (hent _ (mapFind_mem _ _ _ hf)).1
      have hb : (1:Int) ≤ id := by simpa using (hent _ (mapFind_mem _ _ _ hf)).2.1
      simp [TaskStorage.getTask, hf]
      omega
    | none =>
      simp [TaskStorage.getTask, hf]
  · intro hle
    cases hf : mapFind id (initStore.run ops).tasks with
    | none => rfl
    | some t =>
      have hc : id < (initStore.run ops).nextId := by
        simpa using (hent _ (mapFind_mem _ _ _ hf)).2.2
      omega
  · intro hle
    cases hf : mapFind id (initStore.run ops).tasks with
    | none => rfl
    | some t =>
      have hb : (1:Int) ≤ id := by
        simpa using (hent _ (mapFind_mem _ _ _ hf)).2.1
      omega

theorem C4_getTask_sentinel_witness :
    (initStore.run [(.create {}, 0)]).getTask 2 = {} :=
  (C4_getTask_sentinel [(.create {}, 0)] 2).2.1 (by decide)

/-- C5: For every id present in the store, `updateTask` replaces exactly the
title, description and status of the stored task with the caller-supplied
ones and stamps the update time, leaving the task's id and creation stamp —
and every other key of the store — unchanged. -/
theorem C5_updateTask_frame (s : TaskStorage) (id : Int) (u : Task) (now : Nat)
    (task : Task) (hfind : mapFind id s.tasks = some task) :
    ∃ t', s.updateTask id u now = (true, { s with tasks := mapSet id t' s.tasks }) ∧
      t' = { task with
             title := u.title
             description := u.description
             status := u.status
             update_time := some now } ∧
      mapFind id (mapSet id t' s.tasks) = some t' ∧
      (∀ k, k ≠ id → mapFind k (mapSet id t' s.tasks) = mapFind k s.tasks) := by
  refine ⟨Task.updateTime
      { task with
        title := u.title
        description := u.description
        status := u.status } now,
    ?_, rfl, mapFind_mapSet_self _ _ _,
    fun k hk => mapFind_mapSet_ne id k _ s.tasks hk⟩
  simp [TaskStorage.updateTask, hfind]

theorem C5_updateTask_frame_witness :
    ∃ t', TaskStorage.updateTask sampleStore 1 { title := "X" } 9 =
      (true, { sampleStore with tasks := mapSet 1 t' sampleStore.tasks }) :=
  (C5_updateTask_frame sampleStore 1 { title := "X" } 9 sampleTask
    (by decide)).elim (fun t' h => ⟨t', h.1⟩)

/-- C6: In every reachable store state, `getAllTasks` returns exactly the
stored tasks — a task is in the result iff it is stored under some key — in
strictly ascending id order (the empty sequence when the store is empty),
and `count` equals the length of that sequence. -/
theorem C6_getAll_sorted_count (ops : List (Op × Nat)) :
    (initStore.run ops).getAllTasks = (initStore.run ops).tasks.map Prod.snd ∧
    ((initStore.run ops).getAllTasks).Pairwise (fun a b => a.id < b.id) ∧
    (initStore.run ops).count = ((initStore.run ops).getAllTasks).length ∧
    (∀ t, t ∈ (initStore.run ops).getAllTasks ↔
      ∃ k, mapFind k (initStore.run ops).tasks = some t) := by
  obtain ⟨hn, hsort, hent⟩ := keyInv_run initStore ops keyInv_init
  refine ⟨rfl, ?_, ?_, ?_⟩
  · unfold TaskStorage.getAllTasks
    rw [List.pairwise_map]
    refine hsort.imp_of_mem ?_
    intro a b ha hb hab
    have e1 : a.2.id = a.1 := (hent a ha).1
    have e2 : b.2.id = b.1 := (hent b hb).1
    rw [e1, e2]
    exact hab
  · simp [TaskStorage.count, TaskStorage.getAllTasks]
  · intro t
    constructor
    · intro htm
      unfold TaskStorage.getAllTasks at htm
      rcases List.mem_map.mp htm with ⟨p, hp, rfl⟩
      exact ⟨p.1, mapFind_of_mem p.1 p.2 _ hsort (by simpa using hp)⟩
    · rintro ⟨k, hk⟩
      unfold TaskStorage.getAllTasks
      exact List.mem_map.mpr ⟨(k, t), mapFind_mem _ _ _ hk, rfl⟩

/-- C7: A task returned by `createTask` carries equal creation and update
stamps, both the creation-time clock reading; and along any further
mutations at clock readings no earlier than that one, the task stored under
its id keeps the original creation stamp and an update stamp at least the
creation stamp. -/
theorem C7_timestamps (ops0 : List (Op × Nat)) (t : Task) (n : Nat)
    (ops1 : List (Op × Nat)) (hmono : ∀ p ∈ ops1, n ≤ p.2) :
    ((initStore.run ops0).createTask t n).1.create_time = some n ∧
    ((initStore.run ops0).createTask t n).1.update_time = some n ∧
    ∀ t', mapFind ((initStore.run ops0).createTask t n).1.id
        ((((initStore.run ops0).createTask t n).2).run ops1).tasks = some t' →
      t'.create_time = some n ∧ timeLeB (some n) t'.update_time = true := by
  refine ⟨rfl, rfl, ?_⟩
  have hinv0 := keyInv_run initStore ops0 keyInv_init
  apply time_run_inv
  · show (initStore.run ops0).nextId < (initStore.run ops0).nextId + 1
    omega
  · exact keyInv_createTask (initStore.run ops0) t n hinv0
  · exact hmono
  · intro t' ht'
    have ht2 : mapFind (initStore.run ops0).nextId
        (mapSet (initStore.run ops0).nextId
          (Task.setTime { t with id := (initStore.run ops0).nextId } n)
          (initStore.run ops0).tasks) = some t' := ht'
    rw [mapFind_mapSet_self] at ht2
    have hteq := (Option.some.inj ht2).symm
    subst hteq
    exact ⟨rfl, by simp [Task.setTime, timeLeB]⟩

theorem C7_timestamps_witness :
    ({ id := 1
       title := ""
       description := ""
       status := "todo"
       create_time := some 3
       update_time := some 5 } : Task).create_time = some 3 ∧
    timeLeB (some 3)
      ({ id := 1
         title := ""
         description := ""
         status := "todo"
         create_time := some 3
         update_time := some 5 } : Task).update_time = true :=
  (C7_timestamps [] {} 3 [(.update 1 {}, 5)] (by decide)).2.2 _ (by decide)

/-- C8: For every task `t`, `fromJson (toJson t)` yields a task whose title,
description and status equal those of `t` (ids and timestamps are excluded
from the round-trip: they come back as the defaults). -/
theorem C8_fromJson_toJson (t : Task) :
    Task.fromJson t.toJson =
      some
        { id := 0
          title := t.title
          description := t.description
          status := t.status
          create_time := none
          update_time := none } := rfl

/-- C9: The claim that every `TaskStorage` operation acquires the mutex is
refuted by the code: line by line, every operation except `count` opens with
a `lock_guard` on `mtx`, but `count` (To_Do_API.cpp, ll. 151–153) reads
`tasks.size()` with no lock statement at all — although the copy of
`TaskStorage` in the repository's own unit-test file does lock in `count`,
so the omission contradicts the project's tests and the spec's intent. -/
theorem C9_count_unlocked :
    opLocksMutex StoreOp.countOp = false ∧
    opLocksMutex StoreOp.createTaskOp = true ∧
    opLocksMutex StoreOp.getAllTasksOp = true ∧
    opLocksMutex StoreOp.getTaskOp = true ∧
    opLocksMutex StoreOp.updateTaskOp = true ∧
    opLocksMutex StoreOp.patchTaskOp = true ∧
    opLocksMutex StoreOp.deleteTaskOp = true := by decide

/-- C10: For every id absent from the store, `getTask` returns the
default-constructed `Task()`: id 0, empty title, empty description, status
`"todo"`, and both timestamps unset (empty strings in the C++, `none`
here). -/
theorem C10_sentinel_is_default (s : TaskStorage) (id : Int)
    (h : mapFind id s.tasks = none) :
    s.getTask id =
      { id := 0
        title := ""
        description := ""
        status := "todo"
        create_time := none
        update_time := none } := by
  simp [TaskStorage.getTask, h]

theorem C10_sentinel_is_default_witness :
    initStore.getTask 7 =
      { id := 0
        title := ""
        description := ""
        status := "todo"
        create_time := none
        update_time := none } :=
  C10_sentinel_is_default initStore 7 (by decide)

end TodoApi
